import Mathlib

/-!
Verification of the BIND terminology-conversion pipeline
(`scripts/convert-terminologies.ts`).

The pipeline's pure core is shallowly embedded here: strings are modelled
as `List Char`, JavaScript `Map`s as insertion-ordered association lists,
the module-level `mappings` accumulator as an explicitly returned list,
and the per-id portion of `main` as the function `processId`.
-/

set_option maxRecDepth 10000

-- ===========================================================================
-- Basic string helpers
-- ===========================================================================

/-- Boolean prefix test on character lists (used in place of the JS
`String.startsWith` and of regex anchors). -/
def isPrefixList : List Char → List Char → Bool
  | [], _ => true
  | _ :: _, [] => false
  | a :: as, b :: bs => if a = b then isPrefixList as bs else false

/-- The JavaScript regex `\s` / `String.trim` whitespace class. -/
def jsWs (c : Char) : Bool :=
  c = ' ' || c = Char.ofNat 9 || c = Char.ofNat 10 || c = Char.ofNat 11 ||
  c = Char.ofNat 12 || c = Char.ofNat 13 || c = Char.ofNat 160 ||
  c = Char.ofNat 5760 || (Char.ofNat 8192 ≤ c && c ≤ Char.ofNat 8202) ||
  c = Char.ofNat 8232 || c = Char.ofNat 8233 || c = Char.ofNat 8239 ||
  c = Char.ofNat 8287 || c = Char.ofNat 12288 || c = Char.ofNat 65279

/-- JavaScript `toLowerCase`, restricted to the characters this pipeline
meets: ASCII letters plus the accented capital of the source corpus. -/
def jsToLowerChar (c : Char) : Char :=
  if c = Char.ofNat 201 then Char.ofNat 233 else c.toLower

/-- JavaScript `toUpperCase`, restricted likewise. -/
def jsToUpperChar (c : Char) : Char :=
  if c = Char.ofNat 233 then Char.ofNat 201 else c.toUpper

/-- Lowercase a whole character list. -/
def jsToLower (s : List Char) : List Char := s.map jsToLowerChar

/-- Replace every non-overlapping occurrence of `pat` by `rep`, scanning
left to right, as the JS global `String.replace` does.  The fuel argument
is instantiated with the string length, which bounds the number of steps
because every step consumes at least one input character. -/
def replaceAllAux (pat rep : List Char) : Nat → List Char → List Char
  | _, [] => []
  | 0, s => s
  | n + 1, c :: rest =>
      if isPrefixList pat (c :: rest) then
        rep ++ replaceAllAux pat rep n ((c :: rest).drop pat.length)
      else
        c :: replaceAllAux pat rep n rest

/-- Global substring replacement (JS `str.replace(/pat/g, rep)`). -/
def replaceAll (pat rep s : List Char) : List Char :=
  replaceAllAux pat rep s.length s

/-- Replace every maximal run of characters satisfying `p` by the single
character `rep` (JS `str.replace(/X+/g, "-")`). -/
def collapseRunsAux (p : Char → Bool) (rep : Char) : Nat → List Char → List Char
  | _, [] => []
  | 0, s => s
  | n + 1, c :: rest =>
      if p c then rep :: collapseRunsAux p rep n (rest.dropWhile p)
      else c :: collapseRunsAux p rep n rest

/-- Run-collapsing replacement with fuel instantiated at the length. -/
def collapseRuns (p : Char → Bool) (rep : Char) (s : List Char) : List Char :=
  collapseRunsAux p rep s.length s

/-- JS `str.replace(/^-|-$/g, "")`: remove one leading and one trailing
hyphen. -/
def trimEdgeHyphens (s : List Char) : List Char :=
  let s1 := match s with
    | c :: rest => if c = '-' then rest else s
    | [] => s
  match s1.getLast? with
  | some c => if c = '-' then s1.dropLast else s1
  | none => s1

/-- JS `String.trim`. -/
def trimWs (s : List Char) : List Char :=
  ((s.dropWhile jsWs).reverse.dropWhile jsWs).reverse

/-- Truthiness of an optional string (JS `if (x)`): present and nonempty. -/
def optTruthy : Option (List Char) → Bool
  | some s => !s.isEmpty
  | none => false

-- ===========================================================================
-- Helpers of the converter (source lines 103-190)
-- ===========================================================================

/-- Pass 1 of `toKebabCase`: regex `([a-z0-9])([A-Z])` → `$1-$2`. -/
def kebabPass1 : List Char → List Char
  | c1 :: c2 :: rest =>
      if (c1.isLower || c1.isDigit) && c2.isUpper then
        c1 :: '-' :: kebabPass1 (c2 :: rest)
      else
        c1 :: kebabPass1 (c2 :: rest)
  | s => s

/-- Pass 2 of `toKebabCase`: regex `([A-Z]+)([A-Z][a-z])` → `$1-$2`. -/
def kebabPass2 : List Char → List Char
  | c1 :: c2 :: c3 :: rest =>
      if c1.isUpper && c2.isUpper && c3.isLower then
        c1 :: '-' :: kebabPass2 (c2 :: c3 :: rest)
      else
        c1 :: kebabPass2 (c2 :: c3 :: rest)
  | s => s

/-- Convert PascalCase / camelCase to kebab-case (source `toKebabCase`). -/
def toKebabCase (name : List Char) : List Char :=
  jsToLower (collapseRuns (fun c => jsWs c || c = '_') '-' (kebabPass2 (kebabPass1 name)))

/-- JS `"a-b".split("-")`. -/
def splitOnHyphen : List Char → List (List Char)
  | [] => [[]]
  | c :: rest =>
      if c = '-' then [] :: splitOnHyphen rest
      else
        match splitOnHyphen rest with
        | h :: t => (c :: h) :: t
        | [] => [[c]]

/-- Capitalize the first character of a word (JS `charAt(0).toUpperCase() + slice(1)`). -/
def capitalizeWord : List Char → List Char
  | [] => []
  | c :: rest => jsToUpperChar c :: rest

/-- Convert a kebab-case id to PascalCase (source `toPascalCase`). -/
def toPascalCase (kebab : List Char) : List Char :=
  ((splitOnHyphen kebab).map capitalizeWord).flatten

/-- Convert a kebab-case id to a human-friendly title (source `toTitle`). -/
def toTitle (kebab : List Char) : List Char :=
  List.intercalate [' '] ((splitOnHyphen kebab).map capitalizeWord)

/-- Generate a kebab-case slug from a display string (source `displayToSlug`). -/
def displayToSlug (display : List Char) : List Char :=
  let s1 := replaceAll "&amp;".data "and".data display
  let s2 := replaceAll "&".data "and".data s1
  let s3 := s2.filter (fun c => !(c = Char.ofNat 39 || c = Char.ofNat 8217))
  let s4 := s3.map (fun c => if c.isAlphanum || jsWs c || c = '-' then c else ' ')
  let s5 := collapseRuns jsWs '-' s4
  let s6 := jsToLower s5
  let s7 := collapseRuns (fun c => c = '-') '-' s6
  trimEdgeHyphens s7

/-- One fuel-bounded unfolding of the source `stripPrefix` while-loop; the
loop strips a leading `csio:` or `acord:` on every iteration that
continues.  Fuel `code.length` always suffices because each continuing
iteration removes at least five characters. -/
def stripPrefixAux : Nat → List Char → List Char
  | 0, s => s
  | n + 1, s =>
      if isPrefixList "csio:".data s then stripPrefixAux n (s.drop 5)
      else if isPrefixList "acord:".data s then stripPrefixAux n (s.drop 6)
      else s

/-- Strip external prefixes from codes (source `stripPrefix`). -/
def stripPrefix (code : List Char) : List Char :=
  stripPrefixAux code.length code

/-- True when a string is purely numeric (source `isNumericOnly`, regex `^\d+$`). -/
def isNumericOnly (code : List Char) : Bool :=
  !code.isEmpty && code.all Char.isDigit

/-- Remove a leading case-insensitive marker together with the whitespace
that follows it (regex `^PAT\s*` with the `i` flag). -/
def stripMarkerCI (pat s : List Char) : List Char :=
  if (s.take pat.length).map jsToLowerChar = pat.map jsToLowerChar then
    (s.drop pat.length).dropWhile jsWs
  else s

/-- Clean display text: remove the `DEPRECATED` / `DÉSUET` prefix and trim
(source `cleanDisplay`). -/
def cleanDisplay (display : List Char) : List Char :=
  trimWs (stripMarkerCI "DÉSUET".data (stripMarkerCI "DEPRECATED".data display))

/-- Generate a short definition from the display text (source `generateDefinition`). -/
def generateDefinition (display codeSystemTitle : List Char) : List Char :=
  cleanDisplay display ++ " — ".data ++ jsToLower codeSystemTitle ++ " code.".data

/-- Derive a BIND-native code from a source code (source `deriveBINDCode`). -/
def deriveBINDCode (sourceCode : List Char) (display : Option (List Char)) : List Char :=
  let stripped := stripPrefix sourceCode
  if isNumericOnly stripped && optTruthy display then
    let slug := displayToSlug (cleanDisplay (display.getD []))
    if slug.isEmpty then stripped else slug
  else stripped

-- ===========================================================================
-- Data model (source lines 41-97)
-- ===========================================================================

/-- A single entry in a top-level source file (simple array format). -/
structure TopLevelEntry where
  code : List Char
  display : Option (List Char)
deriving DecidableEq, Repr

/-- A single code inside a code-list source file.  The fields `owner`,
`sub_code_list` and `revision` are never read by the converter and are
omitted. -/
structure CodeListCode where
  code : List Char
  display : List Char
  display_fr : Option (List Char)
  deprecated : Option Bool
deriving DecidableEq, Repr

/-- The shape of a code-list source file; only the name and the codes are
read by the conversion logic. -/
structure CodeListFile where
  code_list_name : List Char
  codes : List CodeListCode
deriving DecidableEq, Repr

/-- A designation entry (`{ language, value }`). -/
structure Designation where
  language : List Char
  value : List Char
deriving DecidableEq, Repr

/-- A BIND CodeSystem concept with optional French designation. -/
structure BindConcept where
  code : List Char
  display : List Char
  definition : List Char
  designation : Option (List Designation)
deriving DecidableEq, Repr

/-- A BIND CodeSystem resource. -/
structure BindCodeSystem where
  resourceType : List Char
  id : List Char
  url : List Char
  name : List Char
  title : List Char
  status : List Char
  language : Option (List Char)
  description : List Char
  concept : List BindConcept
deriving DecidableEq, Repr

/-- One entry in the private source-mapping (a ProvenanceRecord). -/
structure MappingEntry where
  bindCode : List Char
  sourceCode : List Char
  sourceFile : List Char
  codeSystemId : List Char
deriving DecidableEq, Repr

-- ===========================================================================
-- Insertion-ordered association lists (JS `Map` semantics)
-- ===========================================================================

/-- JS `Map.get`: first entry with the given key, if any. -/
def assocGet {α : Type} : List (List Char × α) → List Char → Option α
  | [], _ => none
  | p :: rest, k => if p.1 = k then some p.2 else assocGet rest k

/-- JS `Map.set`: replace the value in place when the key is present
(keeping its position), otherwise append at the end. -/
def assocSet {α : Type} : List (List Char × α) → List Char → α → List (List Char × α)
  | [], k, v => [(k, v)]
  | p :: rest, k, v => if p.1 = k then (k, v) :: rest else p :: assocSet rest k v

-- ===========================================================================
-- Deprecation predicates used by the converter
-- ===========================================================================

/-- Truthiness of the optional `deprecated` flag of a code-list code. -/
def depFlag (c : CodeListCode) : Bool := c.deprecated = some true

/-- The code-list skip test (`code.deprecated || code.display.startsWith("DEPRECATED")`). -/
def depOrMarkedCL (c : CodeListCode) : Bool :=
  depFlag c || isPrefixList "DEPRECATED".data c.display

/-- A code-list code that is deprecated by neither flag nor display marker
(`!code.deprecated && !code.display.startsWith("DEPRECATED")`). -/
def cleanCL (c : CodeListCode) : Bool :=
  !depFlag c && !isPrefixList "DEPRECATED".data c.display

/-- The top-level deprecation test (`entry.display?.startsWith("DEPRECATED")`). -/
def depTL (e : TopLevelEntry) : Bool :=
  match e.display with
  | some d => isPrefixList "DEPRECATED".data d
  | none => false

/-- A top-level entry with a truthy display text that does not start with
`DEPRECATED` (the replacing side of the top-level dedup condition). -/
def cleanTL (e : TopLevelEntry) : Bool :=
  match e.display with
  | some d => !d.isEmpty && !isPrefixList "DEPRECATED".data d
  | none => false

-- ===========================================================================
-- Deduplication (source lines 374-389 and 486-500)
-- ===========================================================================

/-- The code-list dedup fold (source lines 376-389): one winner per derived
code; a later entry replaces the stored one only when the stored one has
its `deprecated` flag set and the later one is clean. -/
def dedupCL : List CodeListCode → List (List Char × CodeListCode) → List (List Char × CodeListCode)
  | [], seen => seen
  | code :: rest, seen =>
      let bindCode := deriveBINDCode code.code (some code.display)
      match assocGet seen bindCode with
      | none => dedupCL rest (seen ++ [(bindCode, code)])
      | some existing =>
          if depFlag existing && !depFlag code &&
              !isPrefixList "DEPRECATED".data code.display then
            dedupCL rest (assocSet seen bindCode code)
          else
            dedupCL rest seen

/-- The top-level dedup fold (source lines 487-500): a later entry replaces
the stored one only when the stored display starts with `DEPRECATED` and
the later entry has a display that does not. -/
def dedupTL : List TopLevelEntry → List (List Char × TopLevelEntry) → List (List Char × TopLevelEntry)
  | [], seen => seen
  | entry :: rest, seen =>
      let bindCode := deriveBINDCode entry.code entry.display
      match assocGet seen bindCode with
      | none => dedupTL rest (seen ++ [(bindCode, entry)])
      | some existing =>
          if depTL existing && cleanTL entry then
            dedupTL rest (assocSet seen bindCode entry)
          else
            dedupTL rest seen

-- ===========================================================================
-- Concept construction and the append loops
-- ===========================================================================

/-- The mapping-file path of a code-list source (`code-lists/<kebab>.json`). -/
def srcFileCL (cl : CodeListFile) : List Char :=
  "code-lists/".data ++ toKebabCase cl.code_list_name ++ ".json".data

/-- Concept built from a code-list winner (source lines 418-433), with the
French designation added when `display_fr` is truthy and cleans to a
nonempty string. -/
def mkConceptCL (title bindCode : List Char) (code : CodeListCode) : BindConcept :=
  { code := bindCode
    display := cleanDisplay code.display
    definition := generateDefinition code.display title
    designation :=
      match code.display_fr with
      | some fr =>
          if fr.isEmpty then none
          else
            let frClean := cleanDisplay fr
            if frClean.isEmpty then none else some [⟨"fr-CA".data, frClean⟩]
      | none => none }

/-- Concept built from a top-level winner (source lines 533-540). -/
def mkConceptTL (title bindCode d : List Char) : BindConcept :=
  { code := bindCode
    display := cleanDisplay d
    definition := generateDefinition d title
    designation := none }

/-- The code-list append loop (source lines 391-444): walks the dedup
winners, skipping deprecated winners and winners whose derived code exists
already, and accumulates new concepts and mapping entries. -/
def clLoop (id title src : List Char) (existingCodes newBindCodes : List (List Char)) :
    List (List Char × CodeListCode) → List BindConcept × List MappingEntry
  | [] => ([], [])
  | (bindCode, code) :: rest =>
      let mapping : MappingEntry := ⟨bindCode, code.code, src, id⟩
      if depOrMarkedCL code then
        let r := clLoop id title src existingCodes newBindCodes rest
        (r.1, mapping :: r.2)
      else if bindCode ∈ existingCodes ∨ bindCode ∈ newBindCodes then
        let r := clLoop id title src existingCodes newBindCodes rest
        (r.1, mapping :: r.2)
      else
        let r := clLoop id title src existingCodes (bindCode :: newBindCodes) rest
        (mkConceptCL title bindCode code :: r.1, mapping :: r.2)

/-- The top-level append loop (source lines 502-551): like the code-list
loop, but a non-deprecated winner without display text is dropped silently
(no concept and no mapping entry). -/
def tlLoop (id title : List Char) (existingCodes newBindCodes : List (List Char)) :
    List (List Char × TopLevelEntry) → List BindConcept × List MappingEntry
  | [] => ([], [])
  | (bindCode, entry) :: rest =>
      let mapping : MappingEntry := ⟨bindCode, entry.code, id ++ ".json".data, id⟩
      if depTL entry then
        let r := tlLoop id title existingCodes newBindCodes rest
        (r.1, mapping :: r.2)
      else if !optTruthy entry.display then
        tlLoop id title existingCodes newBindCodes rest
      else if bindCode ∈ existingCodes ∨ bindCode ∈ newBindCodes then
        let r := tlLoop id title existingCodes newBindCodes rest
        (r.1, mapping :: r.2)
      else
        let r := tlLoop id title existingCodes (bindCode :: newBindCodes) rest
        (mkConceptTL title bindCode (entry.display.getD []) :: r.1, mapping :: r.2)

-- ===========================================================================
-- Building code systems (source lines 348-572)
-- ===========================================================================

/-- Concepts of an optional existing code system. -/
def exConcepts : Option BindCodeSystem → List BindConcept
  | some cs => cs.concept
  | none => []

/-- Codes of the concepts of an optional existing code system. -/
def existingCodesOf (ex : Option BindCodeSystem) : List (List Char) :=
  (exConcepts ex).map (fun c => c.code)

/-- The common tail of both build functions (source lines 446-465 and
553-571): merge into the existing code system (defaulting its language to
`en`), or construct a fresh one. -/
def mergeOrFresh (id title name : List Char) (ex : Option BindCodeSystem)
    (newConcepts : List BindConcept) : BindCodeSystem :=
  match ex with
  | some cs =>
      { cs with
        language := cs.language.orElse (fun _ => some "en".data)
        concept := cs.concept ++ newConcepts }
  | none =>
      { resourceType := "CodeSystem".data
        id := id
        url := "https://bind.codes/".data ++ id
        name := name
        title := title
        status := "draft".data
        language := some "en".data
        description := title ++ " codes for insurance operations.".data
        concept := newConcepts }

/-- Build a CodeSystem from a code-list file (source `buildFromCodeList`),
returning the record together with the mapping entries the source pushes
onto the module-level `mappings` accumulator.  The `topLevelLookup` the
source builds from `topLevelEntries` is never read afterwards and is
reproduced here only for fidelity. -/
def buildFromCodeList (id : List Char) (cl : CodeListFile)
    (topLevelEntries : Option (List TopLevelEntry))
    (existingCS : Option BindCodeSystem) : BindCodeSystem × List MappingEntry :=
  let title := toTitle id
  let name := toPascalCase id
  let existingCodes := existingCodesOf existingCS
  let _topLevelLookup :=
    (topLevelEntries.getD []).foldl (fun m e => assocSet m ( stripPrefix e.code) e)
      ([] : List (List Char × TopLevelEntry))
  let seen := dedupCL cl.codes []
  let r := clLoop id title (srcFileCL cl) existingCodes [] seen
  (mergeOrFresh id title name existingCS r.1, r.2)

/-- Build a CodeSystem from a top-level file only (source `buildFromTopLevel`). -/
def buildFromTopLevel (id : List Char) (entries : List TopLevelEntry)
    (existingCS : Option BindCodeSystem) : BindCodeSystem × List MappingEntry :=
  let title := toTitle id
  let name := toPascalCase id
  let existingCodes := existingCodesOf existingCS
  let seen := dedupTL entries []
  let r := tlLoop id title existingCodes [] seen
  (mergeOrFresh id title name existingCS r.1, r.2)

/-- Whether a concept already has a designation
(`concept.designation && concept.designation.length > 0`). -/
def hasDesig (c : BindConcept) : Bool :=
  match c.designation with
  | some ds => !ds.isEmpty
  | none => false

/-- Enrich a top-level-built code system with French translations from a
code-list file (source `enrichWithCodeList`): concepts with zero
designations are matched first by raw upstream code, then by lowercased
cleaned display text. -/
def enrichWithCodeList (cs : BindCodeSystem) (cl : CodeListFile) : BindCodeSystem :=
  let lookup := cl.codes.foldl (fun m code => assocSet m code.code code)
    ([] : List (List Char × CodeListCode))
  let displayLookup := cl.codes.foldl
    (fun m code =>
      if code.display.isEmpty then m
      else assocSet m ( jsToLower (cleanDisplay code.display)) code)
    ([] : List (List Char × CodeListCode))
  { cs with
    concept := cs.concept.map (fun concept =>
      if hasDesig concept then concept
      else
        let clCode :=
          match assocGet lookup concept.code with
          | some c => some c
          | none => assocGet displayLookup ( jsToLower concept.display)
        match clCode with
        | none => concept
        | some c =>
            match c.display_fr with
            | none => concept
            | some fr =>
                if fr.isEmpty then concept
                else
                  let frClean := cleanDisplay fr
                  if frClean.isEmpty then concept
                  else { concept with designation := some [⟨"fr-CA".data, frClean⟩] }) }

-- ===========================================================================
-- The per-id portion of `main` (source lines 665-719)
-- ===========================================================================

/-- The write-or-skip step of `main`: a record with zero concepts is not
written (`SKIP`), every other record is written to disk. -/
def writeOrSkip (cs : BindCodeSystem) : Option BindCodeSystem :=
  if cs.concept.isEmpty then none else some cs

/-- One iteration of the `main` loop for a single code-system id: build from
the code list (then layer the top-level entries on top), or from the
top-level file alone followed by the enrichment lookup, and finally skip
empty results.  Returns the written record (or `none` when nothing is
written) together with all mapping entries accumulated for this id. -/
def processId (codeListMap : List (List Char × CodeListFile))
    (topLevelMap : List (List Char × List TopLevelEntry))
    (id : List Char) (existingCS : Option BindCodeSystem) :
    Option BindCodeSystem × List MappingEntry :=
  let topLevel := assocGet topLevelMap id
  let codeList := assocGet codeListMap id
  match codeList with
  | some cl =>
      let r1 := buildFromCodeList id cl topLevel existingCS
      match topLevel with
      | some tl =>
          let r2 := buildFromTopLevel id tl (some r1.1)
          (writeOrSkip r2.1, r1.2 ++ r2.2)
      | none => (writeOrSkip r1.1, r1.2)
  | none =>
      match topLevel with
      | some tl =>
          let r1 := buildFromTopLevel id tl existingCS
          let cs :=
            match codeListMap.find? (fun p => decide (p.1 = id)) with
            | some p => enrichWithCodeList r1.1 p.2
            | none => r1.1
          (writeOrSkip cs, r1.2)
      | none => (none, [])

-- ===========================================================================
-- Specification-side dedup winner (for the amended C6)
-- ===========================================================================

/-- Does a code-list code derive to the given target code. -/
def derivesToCL (bc : List Char) (c : CodeListCode) : Bool :=
  decide ( deriveBINDCode c.code (some c.display) = bc)

/-- Does a top-level entry derive to the given target code. -/
def derivesToTL (bc : List Char) (e : TopLevelEntry) : Bool :=
  decide ( deriveBINDCode e.code e.display = bc)

/-- Amended dedup rule, code-list path: among the codes deriving to a
target code, the first one wins unless its `deprecated` flag is set, in
which case the first later clean entry (flag unset, display without the
`DEPRECATED` prefix) wins; a display marker on the first entry alone does
not trigger replacement. -/
def clWinnerSpec (bc : List Char) (codes : List CodeListCode) : Option CodeListCode :=
  match codes.filter (derivesToCL bc) with
  | [] => none
  | f :: r => some (if depFlag f then (r.find? cleanCL).getD f else f)

/-- Amended dedup rule, top-level path: the first entry wins unless its
display starts with `DEPRECATED`, in which case the first later entry with
a nonempty display not starting with `DEPRECATED` wins. -/
def tlWinnerSpec (bc : List Char) (entries : List TopLevelEntry) : Option TopLevelEntry :=
  match entries.filter (derivesToTL bc) with
  | [] => none
  | f :: r => some (if depTL f then (r.find? cleanTL).getD f else f)

-- ===========================================================================
-- Concrete inputs used by counterexamples and witnesses
-- ===========================================================================

/-- The spec scenario input: a simple-array file for id `construction-type`
holding a duplicate pair deriving to `wood-frame`. -/
def tlMapScenario : List (List Char × List TopLevelEntry) :=
  [("construction-type".data,
    [⟨"1".data, some "Wood Frame".data⟩,
     ⟨"1".data, some "DEPRECATED Wood Frame".data⟩])]

/-- A code-list code whose display carries the deprecation marker while its
`deprecated` flag is unset. -/
def cMarkedOnly : CodeListCode := ⟨"x".data, "DEPRECATED Foo".data, none, none⟩

/-- A later clean code-list code deriving to the same target code as
`cMarkedOnly`. -/
def cCleanLater : CodeListCode := ⟨"x".data, "Foo".data, none, none⟩

/-- A structured vocabulary mapping to target id `coverage`, carrying a
French translation for the display text `Fire & Theft`. -/
def clFire : CodeListFile :=
  ⟨"Coverage".data,
   [⟨"fire-theft".data, "Fire & Theft".data, some "Incendie et vol".data, none⟩]⟩

/-- Code-list map holding `clFire` under target id `coverage`. -/
def clMapFire : List (List Char × CodeListFile) := [("coverage".data, clFire)]

/-- Top-level map for id `coverage` with a numeric code whose slug differs
from every code-list code, so its concept gets no designation from the
code-list build. -/
def tlMapFire : List (List Char × List TopLevelEntry) :=
  [("coverage".data, [⟨"047".data, some "Fire & Theft".data⟩])]

/-- A deprecated code-list winner used by the C7 witness. -/
def cDepWitness : CodeListCode := ⟨"dep1".data, "Old Thing".data, none, some true⟩

/-- A code-list file holding one deprecated and one live code (C7 witness). -/
def clDepWitness : CodeListFile :=
  ⟨"RiskThing".data, [cDepWitness, ⟨"live1".data, "Live Thing".data, none, none⟩]⟩

/-- A top-level map used by the C8 witness: two entries deriving to
distinct codes plus one duplicate. -/
def tlMapNodup : List (List Char × List TopLevelEntry) :=
  [("risk-type".data,
    [⟨"a".data, some "Alpha".data⟩,
     ⟨"b".data, some "Beta".data⟩,
     ⟨"a".data, some "Alpha Again".data⟩])]

-- ===========================================================================
-- Theorems for C9 and C10
-- ===========================================================================

/-- Helper: a true prefix test bounds the length of the tested string. -/
theorem isPrefixList_length_le :
    ∀ pat s : List Char, isPrefixList pat s = true → pat.length ≤ s.length := by
  intro pat
  induction pat with
  | nil => intro s _; simp
  | cons a as ih =>
      intro s h
      cases s with
      | nil => simp [isPrefixList] at h
      | cons b bs =>
          simp only [isPrefixList] at h
          by_cases hab : a = b
          · simp only [if_pos hab] at h
            have := ih bs h
            simpa using Nat.succ_le_succ this
          · simp [if_neg hab] at h

/-- Helper: the fuel-bounded stripping loop is fuel-independent once the
fuel reaches the string length, and its result carries no further
strippable marker. -/
theorem stripPrefixAux_spec :
    ∀ n : Nat, ∀ s : List Char, s.length ≤ n →
      stripPrefixAux n s = stripPrefix s ∧
      isPrefixList "csio:".data ( stripPrefix s) = false ∧
      isPrefixList "acord:".data ( stripPrefix s) = false := by
  intro n
  induction n using Nat.strong_induction_on with
  | _ n ih =>
      intro s hlen
      match n with
      | 0 =>
          have hs : s = [] := List.length_eq_zero.mp (Nat.le_zero.mp hlen)
          subst hs
          refine ⟨rfl, ?_, ?_⟩ <;> simp [ stripPrefix, stripPrefixAux, isPrefixList]
      | Nat.succ m =>
          by_cases h1 : isPrefixList "csio:".data s = true
          · have h5 : 5 ≤ s.length := by
              have := isPrefixList_length_le "csio:".data s h1
              simpa using this
            have hdrop : (s.drop 5).length = s.length - 5 := by simp
            have hdm : (s.drop 5).length ≤ m := by omega
            have hrec1 := ih m (Nat.lt_succ_self m) (s.drop 5) hdm
            -- s.length is positive, so stripPrefix s unfolds one step
            have hsl : s.length = (s.length - 1) + 1 := by omega
            have hstep : stripPrefix s = stripPrefixAux (s.length - 1) (s.drop 5) := by
              unfold stripPrefix
              rw [hsl]
              simp [stripPrefixAux, h1]
            have hdm2 : (s.drop 5).length ≤ s.length - 1 := by omega
            have hrec2 := ih (s.length - 1) (by omega) (s.drop 5) hdm2
            have hfix : stripPrefix s = stripPrefix (s.drop 5) := by
              rw [hstep, hrec2.1]
            refine ⟨?_, ?_, ?_⟩
            · have : stripPrefixAux (m + 1) s = stripPrefixAux m (s.drop 5) := by
                simp [stripPrefixAux, h1]
              rw [this, hrec1.1, hfix]
            · rw [hfix]; exact hrec1.2.1
            · rw [hfix]; exact hrec1.2.2
          · by_cases h2 : isPrefixList "acord:".data s = true
            · have h6 : 6 ≤ s.length := by
                have := isPrefixList_length_le "acord:".data s h2
                simpa using this
              have hdm : (s.drop 6).length ≤ m := by simp; omega
              have hrec1 := ih m (Nat.lt_succ_self m) (s.drop 6) hdm
              have hsl : s.length = (s.length - 1) + 1 := by omega
              have hstep : stripPrefix s = stripPrefixAux (s.length - 1) (s.drop 6) := by
                unfold stripPrefix
                rw [hsl]
                simp [stripPrefixAux, h1, h2]
              have hdm2 : (s.drop 6).length ≤ s.length - 1 := by simp; omega
              have hrec2 := ih (s.length - 1) (by omega) (s.drop 6) hdm2
              have hfix : stripPrefix s = stripPrefix (s.drop 6) := by
                rw [hstep, hrec2.1]
              refine ⟨?_, ?_, ?_⟩
              · have : stripPrefixAux (m + 1) s = stripPrefixAux m (s.drop 6) := by
                  simp [stripPrefixAux, h1, h2]
                rw [this, hrec1.1, hfix]
              · rw [hfix]; exact hrec1.2.1
              · rw [hfix]; exact hrec1.2.2
            · have haux : ∀ k, stripPrefixAux k s = s := by
                intro k
                cases k with
                | zero => rfl
                | succ k' => simp [stripPrefixAux, h1, h2]
              have hsp : stripPrefix s = s := haux s.length
              refine ⟨by rw [haux (m + 1), hsp], ?_, ?_⟩
              · rw [hsp]; exact Bool.not_eq_true _ ▸ (by simpa using h1)
              · rw [hsp]; exact Bool.not_eq_true _ ▸ (by simpa using h2)

/-- C10: the prefix-stripping loop terminates for every input string: the
fuel-bounded embedding of the loop is stable for every fuel at least the
string length (each continuing iteration strictly shortens the string), so
`stripPrefix` — and with it `deriveBINDCode` — is a total function whose
result carries no remaining `csio:`/`acord:` prefix. -/
theorem stripPrefix_terminates (s : List Char) (n : Nat) (h : s.length ≤ n) :
    stripPrefixAux n s = stripPrefix s ∧
    isPrefixList "csio:".data ( stripPrefix s) = false ∧
    isPrefixList "acord:".data ( stripPrefix s) = false :=
  stripPrefixAux_spec n s h

/-- Witness for C10 at the concrete input `"csio:csio:X"` with fuel 50. -/
theorem stripPrefix_terminates_witness :
    ("csio:csio:X".data.length ≤ 50) ∧
    (stripPrefixAux 50 "csio:csio:X".data = stripPrefix "csio:csio:X".data ∧
     isPrefixList "csio:".data ( stripPrefix "csio:csio:X".data) = false ∧
     isPrefixList "acord:".data ( stripPrefix "csio:csio:X".data) = false) :=
  ⟨by decide, stripPrefix_terminates "csio:csio:X".data 50 (by decide)⟩

/-- C9: the code-derivation function satisfies the three spec test
vectors: a namespaced alphabetic code keeps its stripped form, a numeric
code with display text becomes the display slug, and a numeric code with
empty display text stays numeric. -/
theorem deriveBINDCode_vectors :
    deriveBINDCode "csio:AUTO".data (some "Automobile".data) = "AUTO".data ∧
    deriveBINDCode "047".data (some "Fire & Theft".data) = "fire-and-theft".data ∧
    deriveBINDCode "acord:0".data (some "".data) = "0".data := by
  refine ⟨?_, ?_, ?_⟩ <;> decide

-- ===========================================================================
-- Association-list lemmas
-- ===========================================================================

/-- Appending a single binding is only visible when the key was absent. -/
theorem assocGet_append_single {α : Type} (l : List (List Char × α)) (k bc : List Char) (v : α) :
    assocGet (l ++ [(k, v)]) bc =
      match assocGet l bc with
      | some x => some x
      | none => if k = bc then some v else none := by
  induction l with
  | nil => simp [assocGet]
  | cons p rest ih =>
      by_cases h : p.1 = bc
      · simp [assocGet, h]
      · simp only [List.cons_append, assocGet, if_neg h]
        exact ih


/-- Reading after `assocSet` sees the new value exactly at the set key. -/
theorem assocGet_assocSet {α : Type} (l : List (List Char × α)) (k bc : List Char) (v : α) :
    assocGet (assocSet l k v) bc = if k = bc then some v else assocGet l bc := by
  induction l with
  | nil => simp [assocSet, assocGet]
  | cons p rest ih =>
      by_cases hpk : p.1 = k
      · by_cases hkb : k = bc
        · simp [assocSet, assocGet, hpk, hkb]
        · have hpb : ¬ p.1 = bc := by rw [hpk]; exact hkb
          simp [assocSet, assocGet, hpk, hkb, hpb]
      · by_cases hpb : p.1 = bc
        · have hkb : ¬ k = bc := by
            intro h; exact hpk (by rw [hpb, h])
          simp only [assocSet, if_neg hpk, assocGet, if_pos hpb, if_neg hkb]
        · simp only [assocSet, if_neg hpk, assocGet, if_neg hpb]
          exact ih

/-- When a key is absent from an association list, the linear search of the
enrichment branch also fails. -/
theorem find_eq_none_of_assocGet_none {α : Type} :
    ∀ (l : List (List Char × α)) (k : List Char),
      assocGet l k = none → l.find? (fun p => decide (p.1 = k)) = none := by
  intro l k
  induction l with
  | nil => intro _; rfl
  | cons p rest ih =>
      intro h
      by_cases hpk : p.1 = k
      · simp [assocGet, hpk] at h
      · simp only [assocGet, if_neg hpk] at h
        have hd : (decide (p.1 = k)) = false := by simpa using hpk
        simp only [List.find?, hd]
        exact ih h

-- ===========================================================================
-- Dedup characterization (C6)
-- ===========================================================================

/-- Characterization of the code-list dedup fold against an arbitrary
starting map. -/
theorem dedupCL_assocGet :
    ∀ (codes : List CodeListCode) (seen : List (List Char × CodeListCode)) (bc : List Char),
      assocGet ( dedupCL codes seen) bc =
        match assocGet seen bc with
        | none => clWinnerSpec bc codes
        | some e =>
            some (if depFlag e then
                    ((codes.filter (derivesToCL bc)).find? cleanCL).getD e
                  else e) := by
  intro codes
  induction codes with
  | nil =>
      intro seen bc
      cases h : assocGet seen bc <;> simp [dedupCL, clWinnerSpec, h]
  | cons c rest ih =>
      intro seen bc
      by_cases hbc : deriveBINDCode c.code (some c.display) = bc
      · have hder : derivesToCL bc c = true := by
          simp [derivesToCL, hbc]
        have hfilter : (c :: rest).filter (derivesToCL bc) =
            c :: rest.filter (derivesToCL bc) := by
          simp [List.filter_cons, hder]
        cases hg : assocGet seen (deriveBINDCode c.code (some c.display)) with
        | none =>
            have hgbc : assocGet seen bc = none := by rw [← hbc]; exact hg
            simp only [dedupCL, hg]
            rw [ih, assocGet_append_single, hgbc, if_pos hbc, hfilter]
            simp [clWinnerSpec, hfilter]
        | some e =>
            have hgbc : assocGet seen bc = some e := by rw [← hbc]; exact hg
            by_cases hcond : (depFlag e && !depFlag c &&
                !isPrefixList "DEPRECATED".data c.display) = true
            · have hdepE : depFlag e = true := by
                cases h : depFlag e with
                | true => rfl
                | false => rw [h] at hcond; simp at hcond
              have hdepC : depFlag c = false := by
                cases h : depFlag c with
                | false => rfl
                | true => rw [h] at hcond; simp at hcond
              have hmark : isPrefixList "DEPRECATED".data c.display = false := by
                cases h : isPrefixList "DEPRECATED".data c.display with
                | false => rfl
                | true => rw [h] at hcond; simp at hcond
              have hclC : cleanCL c = true := by simp [cleanCL, hdepC, hmark]
              simp only [dedupCL, hg, if_pos hcond]
              rw [ih, assocGet_assocSet, if_pos hbc, hgbc, hfilter]
              simp [hdepC, hdepE, List.find?, hclC]
            · simp only [dedupCL, hg, if_neg hcond]
              rw [ih, hgbc, hfilter]
              cases hdepE : depFlag e with
              | false => simp [hdepE]
              | true =>
                  have hclC : cleanCL c = false := by
                    cases hdc : depFlag c with
                    | true => simp [cleanCL, hdc]
                    | false =>
                        cases hm : isPrefixList "DEPRECATED".data c.display with
                        | true => simp [cleanCL, hm]
                        | false => exact absurd (by simp [hdepE, hdc, hm]) hcond
                  simp [List.find?, hclC]
      · have hder : derivesToCL bc c = false := by
          simp [derivesToCL, hbc]
        have hfilter : (c :: rest).filter (derivesToCL bc) =
            rest.filter (derivesToCL bc) := by
          simp [List.filter_cons, hder]
        cases hg : assocGet seen (deriveBINDCode c.code (some c.display)) with
        | none =>
            simp only [dedupCL, hg]
            rw [ih, assocGet_append_single]
            cases hgbc : assocGet seen bc with
            | none =>
                rw [if_neg hbc]
                simp [clWinnerSpec, hfilter]
            | some e => simp [hfilter]
        | some e =>
            by_cases hcond : (depFlag e && !depFlag c &&
                !isPrefixList "DEPRECATED".data c.display) = true
            · simp only [dedupCL, hg, if_pos hcond]
              rw [ih, assocGet_assocSet, if_neg hbc]
              cases hgbc : assocGet seen bc with
              | none => simp [clWinnerSpec, hfilter]
              | some e' => simp [hfilter]
            · simp only [dedupCL, hg, if_neg hcond]
              rw [ih]
              cases hgbc : assocGet seen bc with
              | none => simp [clWinnerSpec, hfilter]
              | some e' => simp [hfilter]

/-- A clean top-level entry is not display-marked deprecated. -/
theorem depTL_eq_false_of_cleanTL (e : TopLevelEntry) :
    cleanTL e = true → depTL e = false := by
  intro h
  cases hd : e.display with
  | none => simp [cleanTL, hd] at h
  | some d =>
      simp only [cleanTL, hd, Bool.and_eq_true] at h
      simp only [depTL, hd]
      simpa using h.2

/-- Characterization of the top-level dedup fold against an arbitrary
starting map. -/
theorem dedupTL_assocGet :
    ∀ (entries : List TopLevelEntry) (seen : List (List Char × TopLevelEntry)) (bc : List Char),
      assocGet ( dedupTL entries seen) bc =
        match assocGet seen bc with
        | none => tlWinnerSpec bc entries
        | some e =>
            some (if depTL e then
                    ((entries.filter (derivesToTL bc)).find? cleanTL).getD e
                  else e) := by
  intro entries
  induction entries with
  | nil =>
      intro seen bc
      cases h : assocGet seen bc <;> simp [dedupTL, tlWinnerSpec, h]
  | cons c rest ih =>
      intro seen bc
      by_cases hbc : deriveBINDCode c.code c.display = bc
      · have hder : derivesToTL bc c = true := by
          simp [derivesToTL, hbc]
        have hfilter : (c :: rest).filter (derivesToTL bc) =
            c :: rest.filter (derivesToTL bc) := by
          simp [List.filter_cons, hder]
        cases hg : assocGet seen (deriveBINDCode c.code c.display) with
        | none =>
            have hgbc : assocGet seen bc = none := by rw [← hbc]; exact hg
            simp only [dedupTL, hg]
            rw [ih, assocGet_append_single, hgbc, if_pos hbc, hfilter]
            simp [tlWinnerSpec, hfilter]
        | some e =>
            have hgbc : assocGet seen bc = some e := by rw [← hbc]; exact hg
            by_cases hcond : (depTL e && cleanTL c) = true
            · have hdepE : depTL e = true := by
                cases h : depTL e with
                | true => rfl
                | false => rw [h] at hcond; simp at hcond
              have hclC : cleanTL c = true := by
                cases h : cleanTL c with
                | true => rfl
                | false => rw [h] at hcond; simp at hcond
              have hdepC : depTL c = false := depTL_eq_false_of_cleanTL c hclC
              simp only [dedupTL, hg, if_pos hcond]
              rw [ih, assocGet_assocSet, if_pos hbc, hgbc, hfilter]
              simp [hdepC, hdepE, List.find?, hclC]
            · simp only [dedupTL, hg, if_neg hcond]
              rw [ih, hgbc, hfilter]
              cases hdepE : depTL e with
              | false => simp [hdepE]
              | true =>
                  have hclC : cleanTL c = false := by
                    cases h : cleanTL c with
                    | false => rfl
                    | true => exact absurd (by simp [hdepE, h]) hcond
                  simp [List.find?, hclC]
      · have hder : derivesToTL bc c = false := by
          simp [derivesToTL, hbc]
        have hfilter : (c :: rest).filter (derivesToTL bc) =
            rest.filter (derivesToTL bc) := by
          simp [List.filter_cons, hder]
        cases hg : assocGet seen (deriveBINDCode c.code c.display) with
        | none =>
            simp only [dedupTL, hg]
            rw [ih, assocGet_append_single]
            cases hgbc : assocGet seen bc with
            | none =>
                rw [if_neg hbc]
                simp [tlWinnerSpec, hfilter]
            | some e => simp [hfilter]
        | some e =>
            by_cases hcond : (depTL e && cleanTL c) = true
            · simp only [dedupTL, hg, if_pos hcond]
              rw [ih, assocGet_assocSet, if_neg hbc]
              cases hgbc : assocGet seen bc with
              | none => simp [tlWinnerSpec, hfilter]
              | some e' => simp [hfilter]
            · simp only [dedupTL, hg, if_neg hcond]
              rw [ih]
              cases hgbc : assocGet seen bc with
              | none => simp [tlWinnerSpec, hfilter]
              | some e' => simp [hfilter]

-- ===========================================================================
-- Claim theorems: C6, C4, C3, C5
-- ===========================================================================

/-- C6 counterexample: within the code-list source, a first-seen entry
whose display text carries the `DEPRECATED` marker (deprecated flag unset)
is kept even though a later entry is not deprecated in any way — the claim
predicts the later entry wins. -/
theorem dedup_marker_counterexample :
    dedupCL [cMarkedOnly, cCleanLater] [] = [("x".data, cMarkedOnly)] ∧
    isPrefixList "DEPRECATED".data cMarkedOnly.display = true ∧
    depFlag cMarkedOnly = false ∧
    depFlag cCleanLater = false ∧
    isPrefixList "DEPRECATED".data cCleanLater.display = false ∧
    cMarkedOnly ≠ cCleanLater := by
  refine ⟨?_, ?_, ?_, ?_, ?_, ?_⟩ <;> decide

/-- C6 (amended): for each derived target code the deduplicator keeps
exactly one winner, characterized as follows.  Code-list path: the
first-seen entry wins unless its `deprecated` flag is set, in which case
the first later entry with the flag unset and a display not starting with
`DEPRECATED` wins (a deprecation marker in the first-seen display alone
does not trigger replacement).  Top-level path: the first-seen entry wins
unless its display starts with `DEPRECATED`, in which case the first later
entry with a nonempty display not starting with `DEPRECATED` wins. -/
theorem dedup_winner_characterization :
    (∀ (codes : List CodeListCode) (bc : List Char),
        assocGet ( dedupCL codes []) bc = clWinnerSpec bc codes) ∧
    (∀ (entries : List TopLevelEntry) (bc : List Char),
        assocGet ( dedupTL entries []) bc = tlWinnerSpec bc entries) := by
  constructor
  · intro codes bc
    rw [dedupCL_assocGet]
    rfl
  · intro entries bc
    rw [dedupTL_assocGet]
    rfl

-- ===========================================================================
-- Mapping-emission lemmas for the append loops (C3, C7)
-- ===========================================================================

/-- A display-marked top-level entry necessarily has truthy display text. -/
theorem optTruthy_of_depTL (e : TopLevelEntry) :
    depTL e = true → optTruthy e.display = true := by
  intro h
  cases hd : e.display with
  | none => simp [depTL, hd] at h
  | some d =>
      cases d with
      | nil => simp [depTL, hd, isPrefixList] at h
      | cons a as => simp [optTruthy, hd]

/-- The code-list append loop emits exactly one mapping entry per
deduplicated winner, in order. -/
theorem clLoop_maps (id title src : List Char) (exC : List (List Char)) :
    ∀ (seen : List (List Char × CodeListCode)) (nbc : List (List Char)),
      ( clLoop id title src exC nbc seen).2 =
        seen.map (fun p => (⟨p.1, p.2.code, src, id⟩ : MappingEntry)) := by
  intro seen
  induction seen with
  | nil => intro nbc; rfl
  | cons p rest ih =>
      intro nbc
      obtain ⟨bc, c⟩ := p
      by_cases h1 : depOrMarkedCL c = true
      · simp [clLoop, h1, ih]
      · by_cases h2 : bc ∈ exC ∨ bc ∈ nbc
        · simp [clLoop, h1, h2, ih]
        · simp [clLoop, h1, h2, ih]

/-- The top-level append loop emits exactly one mapping entry per
deduplicated winner with truthy display text, and none for winners without
display text. -/
theorem tlLoop_maps (id title : List Char) (exC : List (List Char)) :
    ∀ (seen : List (List Char × TopLevelEntry)) (nbc : List (List Char)),
      ( tlLoop id title exC nbc seen).2 =
        (seen.filter (fun p => optTruthy p.2.display)).map
          (fun p => (⟨p.1, p.2.code, id ++ ".json".data, id⟩ : MappingEntry)) := by
  intro seen
  induction seen with
  | nil => intro nbc; rfl
  | cons p rest ih =>
      intro nbc
      obtain ⟨bc, e⟩ := p
      by_cases h1 : depTL e = true
      · have ht := optTruthy_of_depTL e h1
        simp [tlLoop, h1, ht, List.filter_cons, ih]
      · by_cases h2 : optTruthy e.display = true
        · by_cases h3 : bc ∈ exC ∨ bc ∈ nbc
          · simp [tlLoop, h1, h2, h3, List.filter_cons, ih]
          · simp [tlLoop, h1, h2, h3, List.filter_cons, ih]
        · have h2' : optTruthy e.display = false := by
            cases h : optTruthy e.display with
            | false => rfl
            | true => exact absurd h h2
          simp [tlLoop, h1, h2', List.filter_cons, ih]

-- ===========================================================================
-- Claim theorems: C3, C4, C5
-- ===========================================================================

/-- C3 counterexample: two upstream entries deriving to the same target
code are both examined by the deduplicator, yet only one ProvenanceRecord
is appended — the losing duplicate contributes none. -/
theorem provenance_not_per_entry :
    ([(⟨"a".data, some "A".data⟩ : TopLevelEntry), ⟨"a".data, some "B".data⟩].length = 2) ∧
    (buildFromTopLevel "x".data
        [⟨"a".data, some "A".data⟩, ⟨"a".data, some "B".data⟩] none).2.length = 1 := by
  refine ⟨?_, ?_⟩ <;> decide

/-- C3 (amended): exactly one ProvenanceRecord is appended per
deduplicated winner, not per examined entry: the code-list loop emits one
mapping entry for every winner (kept, deprecated, or already existing),
and the top-level loop emits one mapping entry for every winner with
truthy display text and none for winners without display text; entries
dropped as duplicates by the deduplicator contribute no ProvenanceRecord. -/
theorem provenance_per_winner :
    (∀ (id title src : List Char) (exC nbc : List (List Char))
        (seen : List (List Char × CodeListCode)),
        ( clLoop id title src exC nbc seen).2 =
          seen.map (fun p => (⟨p.1, p.2.code, src, id⟩ : MappingEntry))) ∧
    (∀ (id title : List Char) (exC nbc : List (List Char))
        (seen : List (List Char × TopLevelEntry)),
        ( tlLoop id title exC nbc seen).2 =
          (seen.filter (fun p => optTruthy p.2.display)).map
            (fun p => (⟨p.1, p.2.code, id ++ ".json".data, id⟩ : MappingEntry))) :=
  ⟨fun id title src exC nbc seen => clLoop_maps id title src exC seen nbc,
   fun id title exC nbc seen => tlLoop_maps id title exC seen nbc⟩

/-- C4 counterexample: the spec scenario (empty structured input, simple
array with a `Wood Frame` / `DEPRECATED Wood Frame` duplicate pair)
produces exactly one provenance entry, not the claimed two. -/
theorem scenario_provenance_counterexample :
    (processId [] tlMapScenario "construction-type".data none).2.length = 1 ∧
    ¬ (processId [] tlMapScenario "construction-type".data none).2.length = 2 := by
  refine ⟨?_, ?_⟩ <;> decide

/-- C4 (amended): the scenario yields exactly one concept
`{code := wood-frame, display := Wood Frame}` and exactly one provenance
entry (the losing duplicate contributes none). -/
theorem scenario_wood_frame_amended :
    ((processId [] tlMapScenario "construction-type".data none).1.map
        (fun cs => cs.concept.map (fun c => (c.code, c.display))) =
      some [("wood-frame".data, "Wood Frame".data)]) ∧
    (processId [] tlMapScenario "construction-type".data none).2.length = 1 := by
  refine ⟨?_, ?_⟩ <;> decide

/-- C5: the Cross-Source Enricher is never reached.  Whenever a structured
vocabulary maps to a target id, `processId` takes the code-list branch, so
the enrichment lookup in the simple-array-only branch (which searches the
code-list map for the very key whose absence selected that branch) never
fires: on the concrete input below the written record's second concept
keeps zero designations, although running `enrichWithCodeList` on that
record would backfill its French designation by display-text match. -/
theorem enricher_never_invoked :
    ((processId clMapFire tlMapFire "coverage".data none).1.map
        (fun cs => cs.concept.map (fun c => (c.code, c.designation))) =
      some [("fire-theft".data, some [⟨"fr-CA".data, "Incendie et vol".data⟩]),
            ("fire-and-theft".data, none)]) ∧
    ((processId clMapFire tlMapFire "coverage".data none).1.map
        (fun cs => (enrichWithCodeList cs clFire).concept.map
          (fun c => (c.code, c.designation))) =
      some [("fire-theft".data, some [⟨"fr-CA".data, "Incendie et vol".data⟩]),
            ("fire-and-theft".data, some [⟨"fr-CA".data, "Incendie et vol".data⟩])]) := by
  refine ⟨?_, ?_⟩ <;> decide

-- ===========================================================================
-- Shape lemmas for the build functions
-- ===========================================================================

/-- Both build tails produce the existing concepts followed by the new ones. -/
theorem mergeOrFresh_concept (id title name : List Char) (ex : Option BindCodeSystem)
    (nc : List BindConcept) :
    (mergeOrFresh id title name ex nc).concept = exConcepts ex ++ nc := by
  cases ex <;> simp [mergeOrFresh, exConcepts]

/-- Both build tails always set a language. -/
theorem mergeOrFresh_language (id title name : List Char) (ex : Option BindCodeSystem)
    (nc : List BindConcept) :
    (mergeOrFresh id title name ex nc).language.isSome = true := by
  cases ex with
  | none => simp [mergeOrFresh]
  | some cs => cases h : cs.language <;> simp [mergeOrFresh, Option.orElse, h]

/-- Merging zero new concepts into a record that already has a language is
the identity. -/
theorem mergeOrFresh_self (id title name : List Char) (cs : BindCodeSystem)
    (h : cs.language.isSome = true) :
    mergeOrFresh id title name (some cs) [] = cs := by
  obtain ⟨rt, i, u, nm, t, st, lang, d, co⟩ := cs
  cases lang with
  | none => simp at h
  | some l => simp [mergeOrFresh, Option.orElse]

/-- The concepts of a code-list build. -/
theorem buildFromCodeList_concept (id : List Char) (cl : CodeListFile)
    (tl : Option (List TopLevelEntry)) (ex : Option BindCodeSystem) :
    (buildFromCodeList id cl tl ex).1.concept =
      exConcepts ex ++
        ( clLoop id (toTitle id) (srcFileCL cl) (existingCodesOf ex) []
          ( dedupCL cl.codes [])).1 := by
  simp [buildFromCodeList, mergeOrFresh_concept]

/-- The concepts of a top-level build. -/
theorem buildFromTopLevel_concept (id : List Char) (entries : List TopLevelEntry)
    (ex : Option BindCodeSystem) :
    (buildFromTopLevel id entries ex).1.concept =
      exConcepts ex ++
        ( tlLoop id (toTitle id) (existingCodesOf ex) [] ( dedupTL entries [])).1 := by
  simp [buildFromTopLevel, mergeOrFresh_concept]

/-- A code-list build always sets a language. -/
theorem buildFromCodeList_language (id : List Char) (cl : CodeListFile)
    (tl : Option (List TopLevelEntry)) (ex : Option BindCodeSystem) :
    (buildFromCodeList id cl tl ex).1.language.isSome = true := by
  simp [buildFromCodeList, mergeOrFresh_language]

/-- A top-level build always sets a language. -/
theorem buildFromTopLevel_language (id : List Char) (entries : List TopLevelEntry)
    (ex : Option BindCodeSystem) :
    (buildFromTopLevel id entries ex).1.language.isSome = true := by
  simp [buildFromTopLevel, mergeOrFresh_language]

-- ===========================================================================
-- Closure and stability of the append loops
-- ===========================================================================

/-- Every non-deprecated code-list winner ends up either among the existing
codes, the accumulated new codes, or the codes of the produced concepts. -/
theorem clLoop_closure (id title src : List Char) (exC : List (List Char)) :
    ∀ (seen : List (List Char × CodeListCode)) (nbc : List (List Char)),
      ∀ p ∈ seen, depOrMarkedCL p.2 = false →
        p.1 ∈ exC ∨ p.1 ∈ nbc ∨
          p.1 ∈ ( clLoop id title src exC nbc seen).1.map (fun c => c.code) := by
  intro seen
  induction seen with
  | nil => intro nbc p hp; exact absurd hp (List.not_mem_nil p)
  | cons q rest ih =>
      intro nbc p hp hdep
      obtain ⟨bc, c⟩ := q
      rcases List.mem_cons.mp hp with hpq | hprest
      · subst hpq
        simp only [depOrMarkedCL] at hdep
        have h1 : ¬ depOrMarkedCL c = true := by simp [depOrMarkedCL, hdep]
        by_cases h2 : bc ∈ exC ∨ bc ∈ nbc
        · rcases h2 with h | h
          · exact Or.inl h
          · exact Or.inr (Or.inl h)
        · right; right
          simp [clLoop, h1, h2, mkConceptCL]
      · by_cases h1 : depOrMarkedCL c = true
        · have := ih nbc p hprest hdep
          simpa [clLoop, h1] using this
        · by_cases h2 : bc ∈ exC ∨ bc ∈ nbc
          · have := ih nbc p hprest hdep
            simpa [clLoop, h1, h2] using this
          · have := ih (bc :: nbc) p hprest hdep
            rcases this with h | h | h
            · exact Or.inl h
            · rcases List.mem_cons.mp h with hbc | hnbc
              · right; right
                simp only [clLoop, if_neg h1, if_neg h2, List.map_cons, List.mem_cons, hbc]
                exact Or.inl rfl
              · exact Or.inr (Or.inl hnbc)
            · right; right
              simp only [clLoop, if_neg h1, if_neg h2, List.map_cons, List.mem_cons]
              exact Or.inr h

/-- Every non-deprecated top-level winner with truthy display ends up
either among the existing codes, the accumulated new codes, or the codes
of the produced concepts. -/
theorem tlLoop_closure (id title : List Char) (exC : List (List Char)) :
    ∀ (seen : List (List Char × TopLevelEntry)) (nbc : List (List Char)),
      ∀ p ∈ seen, depTL p.2 = false → optTruthy p.2.display = true →
        p.1 ∈ exC ∨ p.1 ∈ nbc ∨
          p.1 ∈ ( tlLoop id title exC nbc seen).1.map (fun c => c.code) := by
  intro seen
  induction seen with
  | nil => intro nbc p hp; exact absurd hp (List.not_mem_nil p)
  | cons q rest ih =>
      intro nbc p hp hdep htr
      obtain ⟨bc, e⟩ := q
      rcases List.mem_cons.mp hp with hpq | hprest
      · subst hpq
        have h1 : ¬ depTL e = true := by simp [hdep]
        have h1' : ¬ (!optTruthy e.display) = true := by simp [htr]
        by_cases h2 : bc ∈ exC ∨ bc ∈ nbc
        · rcases h2 with h | h
          · exact Or.inl h
          · exact Or.inr (Or.inl h)
        · right; right
          simp [tlLoop, h1, h1', h2, htr, mkConceptTL]
      · by_cases h1 : depTL e = true
        · have := ih nbc p hprest hdep htr
          simpa [tlLoop, h1] using this
        · by_cases htre : optTruthy e.display = true
          · by_cases h2 : bc ∈ exC ∨ bc ∈ nbc
            · have := ih nbc p hprest hdep htr
              simpa [tlLoop, h1, htre, h2] using this
            · have := ih (bc :: nbc) p hprest hdep htr
              rcases this with h | h | h
              · exact Or.inl h
              · rcases List.mem_cons.mp h with hbc | hnbc
                · right; right
                  simp only [tlLoop, if_neg h1, htre, Bool.not_true, Bool.false_eq_true,
                    if_false, if_neg h2, List.map_cons, List.mem_cons, hbc]
                  exact Or.inl rfl
                · exact Or.inr (Or.inl hnbc)
              · right; right
                simp only [tlLoop, if_neg h1, htre, Bool.not_true,
                  Bool.false_eq_true, if_false, if_neg h2, List.map_cons, List.mem_cons]
                exact Or.inr h
          · have htre' : optTruthy e.display = false := by
              cases h : optTruthy e.display with
              | false => rfl
              | true => exact absurd h htre
            have := ih nbc p hprest hdep htr
            simpa [tlLoop, h1, htre'] using this

/-- When every non-deprecated code-list winner is already among the
existing codes, the loop produces no new concepts. -/
theorem clLoop_stable (id title src : List Char) (exC : List (List Char)) :
    ∀ (seen : List (List Char × CodeListCode)) (nbc : List (List Char)),
      (∀ p ∈ seen, depOrMarkedCL p.2 = false → p.1 ∈ exC) →
      ( clLoop id title src exC nbc seen).1 = [] := by
  intro seen
  induction seen with
  | nil => intro nbc _; rfl
  | cons q rest ih =>
      intro nbc hyp
      obtain ⟨bc, c⟩ := q
      by_cases h1 : depOrMarkedCL c = true
      · simp only [clLoop, if_pos h1]
        exact ih nbc (fun p hp => hyp p (List.mem_cons_of_mem _ hp))
      · have hdep : depOrMarkedCL c = false := by
          cases h : depOrMarkedCL c with
          | false => rfl
          | true => exact absurd h h1
        have hbc : bc ∈ exC := hyp (bc, c) (List.mem_cons_self _ _) hdep
        have h2 : bc ∈ exC ∨ bc ∈ nbc := Or.inl hbc
        simp only [clLoop, if_neg h1, if_pos h2]
        exact ih nbc (fun p hp => hyp p (List.mem_cons_of_mem _ hp))

/-- When every non-deprecated, truthy-display top-level winner is already
among the existing codes, the loop produces no new concepts. -/
theorem tlLoop_stable (id title : List Char) (exC : List (List Char)) :
    ∀ (seen : List (List Char × TopLevelEntry)) (nbc : List (List Char)),
      (∀ p ∈ seen, depTL p.2 = false → optTruthy p.2.display = true → p.1 ∈ exC) →
      ( tlLoop id title exC nbc seen).1 = [] := by
  intro seen
  induction seen with
  | nil => intro nbc _; rfl
  | cons q rest ih =>
      intro nbc hyp
      obtain ⟨bc, e⟩ := q
      by_cases h1 : depTL e = true
      · simp only [tlLoop, if_pos h1]
        exact ih nbc (fun p hp => hyp p (List.mem_cons_of_mem _ hp))
      · by_cases htre : optTruthy e.display = true
        · have hdep : depTL e = false := by
            cases h : depTL e with
            | false => rfl
            | true => exact absurd h h1
          have hbc : bc ∈ exC := hyp (bc, e) (List.mem_cons_self _ _) hdep htre
          have h2 : bc ∈ exC ∨ bc ∈ nbc := Or.inl hbc
          have h1' : ¬ (!optTruthy e.display) = true := by simp [htre]
          simp only [tlLoop, if_neg h1, if_neg h1', if_pos h2]
          exact ih nbc (fun p hp => hyp p (List.mem_cons_of_mem _ hp))
        · have htre' : optTruthy e.display = false := by
            cases h : optTruthy e.display with
            | false => rfl
            | true => exact absurd h htre
          simp only [tlLoop, if_neg h1, htre', Bool.not_false]
          rw [if_pos trivial]
          exact ih nbc (fun p hp => hyp p (List.mem_cons_of_mem _ hp))

-- ===========================================================================
-- Uniqueness lemmas for the append loops (C8)
-- ===========================================================================

/-- The codes of the concepts produced by the code-list loop are pairwise
distinct and avoid both the existing codes and the accumulated new codes. -/
theorem clLoop_nodup (id title src : List Char) (exC : List (List Char)) :
    ∀ (seen : List (List Char × CodeListCode)) (nbc : List (List Char)),
      (( clLoop id title src exC nbc seen).1.map (fun c => c.code)).Nodup ∧
      ∀ b ∈ ( clLoop id title src exC nbc seen).1.map (fun c => c.code),
        b ∉ exC ∧ b ∉ nbc := by
  intro seen
  induction seen with
  | nil => intro nbc; exact ⟨List.nodup_nil, fun b hb => absurd hb (List.not_mem_nil b)⟩
  | cons q rest ih =>
      intro nbc
      obtain ⟨bc, c⟩ := q
      by_cases h1 : depOrMarkedCL c = true
      · simpa [clLoop, h1] using ih nbc
      · by_cases h2 : bc ∈ exC ∨ bc ∈ nbc
        · simpa [clLoop, h1, h2] using ih nbc
        · obtain ⟨hnd, hall⟩ := ih (bc :: nbc)
          have hout : ( clLoop id title src exC nbc ((bc, c) :: rest)).1.map (fun c => c.code) =
              bc :: ( clLoop id title src exC (bc :: nbc) rest).1.map (fun c => c.code) := by
            simp [clLoop, h1, h2, mkConceptCL]
          rw [hout]
          constructor
          · rw [List.nodup_cons]
            refine ⟨?_, hnd⟩
            intro hmem
            exact (hall bc hmem).2 (List.mem_cons_self _ _)
          · intro b hb
            rcases List.mem_cons.mp hb with hbbc | hbrest
            · subst hbbc
              push_neg at h2
              exact h2
            · obtain ⟨he, hn⟩ := hall b hbrest
              exact ⟨he, fun hmem => hn (List.mem_cons_of_mem _ hmem)⟩

/-- The codes of the concepts produced by the top-level loop are pairwise
distinct and avoid both the existing codes and the accumulated new codes. -/
theorem tlLoop_nodup (id title : List Char) (exC : List (List Char)) :
    ∀ (seen : List (List Char × TopLevelEntry)) (nbc : List (List Char)),
      (( tlLoop id title exC nbc seen).1.map (fun c => c.code)).Nodup ∧
      ∀ b ∈ ( tlLoop id title exC nbc seen).1.map (fun c => c.code),
        b ∉ exC ∧ b ∉ nbc := by
  intro seen
  induction seen with
  | nil => intro nbc; exact ⟨List.nodup_nil, fun b hb => absurd hb (List.not_mem_nil b)⟩
  | cons q rest ih =>
      intro nbc
      obtain ⟨bc, e⟩ := q
      by_cases h1 : depTL e = true
      · simpa [tlLoop, h1] using ih nbc
      · by_cases htre : optTruthy e.display = true
        · by_cases h2 : bc ∈ exC ∨ bc ∈ nbc
          · simpa [tlLoop, h1, htre, h2] using ih nbc
          · obtain ⟨hnd, hall⟩ := ih (bc :: nbc)
            have hout : ( tlLoop id title exC nbc ((bc, e) :: rest)).1.map (fun c => c.code) =
                bc :: ( tlLoop id title exC (bc :: nbc) rest).1.map (fun c => c.code) := by
              simp [tlLoop, h1, htre, h2, mkConceptTL]
            rw [hout]
            constructor
            · rw [List.nodup_cons]
              refine ⟨?_, hnd⟩
              intro hmem
              exact (hall bc hmem).2 (List.mem_cons_self _ _)
            · intro b hb
              rcases List.mem_cons.mp hb with hbbc | hbrest
              · subst hbbc
                push_neg at h2
                exact h2
              · obtain ⟨he, hn⟩ := hall b hbrest
                exact ⟨he, fun hmem => hn (List.mem_cons_of_mem _ hmem)⟩
        · have htre' : optTruthy e.display = false := by
            cases h : optTruthy e.display with
            | false => rfl
            | true => exact absurd h htre
          have hout : ( tlLoop id title exC nbc ((bc, e) :: rest)) =
              tlLoop id title exC nbc rest := by
            simp only [tlLoop, if_neg h1, htre', Bool.not_false]
            rw [if_pos trivial]
          rw [hout]
          exact ih nbc

-- ===========================================================================
-- Concept-origin lemmas for the append loops (C7)
-- ===========================================================================

/-- Every concept produced by the code-list loop originates from a
non-deprecated winner carrying the same code. -/
theorem clLoop_concepts (id title src : List Char) (exC : List (List Char)) :
    ∀ (seen : List (List Char × CodeListCode)) (nbc : List (List Char)),
      ∀ c ∈ ( clLoop id title src exC nbc seen).1,
        ∃ p ∈ seen, c.code = p.1 ∧ depOrMarkedCL p.2 = false := by
  intro seen
  induction seen with
  | nil => intro nbc c hc; exact absurd hc (List.not_mem_nil c)
  | cons q rest ih =>
      intro nbc c hc
      obtain ⟨bc, cd⟩ := q
      by_cases h1 : depOrMarkedCL cd = true
      · rw [show ( clLoop id title src exC nbc ((bc, cd) :: rest)).1 =
            ( clLoop id title src exC nbc rest).1 by simp [clLoop, h1]] at hc
        obtain ⟨p, hp, h⟩ := ih nbc c hc
        exact ⟨p, List.mem_cons_of_mem _ hp, h⟩
      · by_cases h2 : bc ∈ exC ∨ bc ∈ nbc
        · rw [show ( clLoop id title src exC nbc ((bc, cd) :: rest)).1 =
              ( clLoop id title src exC nbc rest).1 by simp [clLoop, h1, h2]] at hc
          obtain ⟨p, hp, h⟩ := ih nbc c hc
          exact ⟨p, List.mem_cons_of_mem _ hp, h⟩
        · rw [show ( clLoop id title src exC nbc ((bc, cd) :: rest)).1 =
              mkConceptCL title bc cd :: ( clLoop id title src exC (bc :: nbc) rest).1
              by simp [clLoop, h1, h2]] at hc
          rcases List.mem_cons.mp hc with hch | hct
          · refine ⟨(bc, cd), List.mem_cons_self _ _, ?_, ?_⟩
            · rw [hch]; rfl
            · cases h : depOrMarkedCL cd with
              | false => rfl
              | true => exact absurd h h1
          · obtain ⟨p, hp, h⟩ := ih (bc :: nbc) c hct
            exact ⟨p, List.mem_cons_of_mem _ hp, h⟩

/-- Every concept produced by the top-level loop originates from a winner
that is not display-marked deprecated and carries the same code. -/
theorem tlLoop_concepts (id title : List Char) (exC : List (List Char)) :
    ∀ (seen : List (List Char × TopLevelEntry)) (nbc : List (List Char)),
      ∀ c ∈ ( tlLoop id title exC nbc seen).1,
        ∃ p ∈ seen, c.code = p.1 ∧ depTL p.2 = false := by
  intro seen
  induction seen with
  | nil => intro nbc c hc; exact absurd hc (List.not_mem_nil c)
  | cons q rest ih =>
      intro nbc c hc
      obtain ⟨bc, e⟩ := q
      by_cases h1 : depTL e = true
      · rw [show ( tlLoop id title exC nbc ((bc, e) :: rest)).1 =
            ( tlLoop id title exC nbc rest).1 by simp [tlLoop, h1]] at hc
        obtain ⟨p, hp, h⟩ := ih nbc c hc
        exact ⟨p, List.mem_cons_of_mem _ hp, h⟩
      · by_cases htre : optTruthy e.display = true
        · by_cases h2 : bc ∈ exC ∨ bc ∈ nbc
          · rw [show ( tlLoop id title exC nbc ((bc, e) :: rest)).1 =
                ( tlLoop id title exC nbc rest).1 by simp [tlLoop, h1, htre, h2]] at hc
            obtain ⟨p, hp, h⟩ := ih nbc c hc
            exact ⟨p, List.mem_cons_of_mem _ hp, h⟩
          · rw [show ( tlLoop id title exC nbc ((bc, e) :: rest)).1 =
                mkConceptTL title bc (e.display.getD []) ::
                  ( tlLoop id title exC (bc :: nbc) rest).1
                by simp [tlLoop, h1, htre, h2]] at hc
            rcases List.mem_cons.mp hc with hch | hct
            · refine ⟨(bc, e), List.mem_cons_self _ _, ?_, ?_⟩
              · rw [hch]; rfl
              · cases h : depTL e with
                | false => rfl
                | true => exact absurd h h1
            · obtain ⟨p, hp, h⟩ := ih (bc :: nbc) c hct
              exact ⟨p, List.mem_cons_of_mem _ hp, h⟩
        · have htre' : optTruthy e.display = false := by
            cases h : optTruthy e.display with
            | false => rfl
            | true => exact absurd h htre
          have hout : ( tlLoop id title exC nbc ((bc, e) :: rest)) =
              tlLoop id title exC nbc rest := by
            simp only [tlLoop, if_neg h1, htre', Bool.not_false]
            rw [if_pos trivial]
          rw [hout] at hc
          obtain ⟨p, hp, h⟩ := ih nbc c hc
          exact ⟨p, List.mem_cons_of_mem _ hp, h⟩

-- ===========================================================================
-- Dedup key uniqueness (C7)
-- ===========================================================================

/-- A key reads as `none` exactly when it is absent. -/
theorem assocGet_eq_none_iff {α : Type} :
    ∀ (l : List (List Char × α)) (k : List Char),
      assocGet l k = none ↔ k ∉ l.map Prod.fst := by
  intro l k
  induction l with
  | nil => exact iff_of_true rfl (by simp)
  | cons p rest ih =>
      by_cases hpk : p.1 = k
      · refine iff_of_false (by simp [assocGet, hpk]) (not_not_intro ?_)
        rw [List.map_cons]
        exact List.mem_cons.mpr (Or.inl hpk.symm)
      · simp only [assocGet, if_neg hpk, List.map_cons, List.mem_cons, ih]
        constructor
        · intro h hk
          rcases hk with hk | hk
          · exact hpk hk.symm
          · exact h hk
        · intro h hk
          exact h (Or.inr hk)

/-- Setting an existing key does not change the key sequence. -/
theorem assocSet_keys {α : Type} :
    ∀ (l : List (List Char × α)) (k : List Char) (v e : α),
      assocGet l k = some e → (assocSet l k v).map Prod.fst = l.map Prod.fst := by
  intro l k v e
  induction l with
  | nil => intro h; cases h
  | cons p rest ih =>
      intro h
      by_cases hpk : p.1 = k
      · simp [assocSet, assocGet, hpk]
      · simp only [assocGet, if_neg hpk] at h
        simp only [assocSet, if_neg hpk, List.map_cons]
        rw [ih h]

/-- The code-list dedup fold keeps its keys pairwise distinct. -/
theorem dedupCL_keys (codes : List CodeListCode) :
    ∀ (seen : List (List Char × CodeListCode)),
      ((seen.map Prod.fst).Nodup) → ((( dedupCL codes seen).map Prod.fst).Nodup) := by
  induction codes with
  | nil => intro seen hn; simpa [dedupCL] using hn
  | cons c rest ih =>
      intro seen hn
      cases hg : assocGet seen (deriveBINDCode c.code (some c.display)) with
      | none =>
          have hnm : deriveBINDCode c.code (some c.display) ∉ seen.map Prod.fst :=
            (assocGet_eq_none_iff seen _).mp hg
          simp only [dedupCL, hg]
          apply ih
          simp [List.nodup_append, hn, hnm]
      | some e =>
          by_cases hcond : (depFlag e && !depFlag c &&
              !isPrefixList "DEPRECATED".data c.display) = true
          · simp only [dedupCL, hg, if_pos hcond]
            apply ih
            rw [assocSet_keys seen _ c e hg]
            exact hn
          · simp only [dedupCL, hg, if_neg hcond]
            exact ih seen hn

/-- The top-level dedup fold keeps its keys pairwise distinct. -/
theorem dedupTL_keys (entries : List TopLevelEntry) :
    ∀ (seen : List (List Char × TopLevelEntry)),
      ((seen.map Prod.fst).Nodup) → ((( dedupTL entries seen).map Prod.fst).Nodup) := by
  induction entries with
  | nil => intro seen hn; simpa [dedupTL] using hn
  | cons c rest ih =>
      intro seen hn
      cases hg : assocGet seen (deriveBINDCode c.code c.display) with
      | none =>
          have hnm : deriveBINDCode c.code c.display ∉ seen.map Prod.fst :=
            (assocGet_eq_none_iff seen _).mp hg
          simp only [dedupTL, hg]
          apply ih
          simp [List.nodup_append, hn, hnm]
      | some e =>
          by_cases hcond : (depTL e && cleanTL c) = true
          · simp only [dedupTL, hg, if_pos hcond]
            apply ih
            rw [assocSet_keys seen _ c e hg]
            exact hn
          · simp only [dedupTL, hg, if_neg hcond]
            exact ih seen hn

-- ===========================================================================
-- Claim theorem: C7
-- ===========================================================================

/-- C7: no concept appended by a run corresponds to a deduplicated winner
whose deprecation marker was set (code-list path: `deprecated` flag or a
`DEPRECATED` display prefix; top-level path: a `DEPRECATED` display
prefix), and every such deprecated winner still receives a provenance
mapping entry in that run. -/
theorem deprecated_excluded_still_mapped
    (id : List Char) (cl : CodeListFile) (tl : Option (List TopLevelEntry))
    (ex : Option BindCodeSystem) (entries : List TopLevelEntry) :
    (∀ p ∈ dedupCL cl.codes [], depOrMarkedCL p.2 = true →
        (⟨p.1, p.2.code, srcFileCL cl, id⟩ : MappingEntry) ∈ (buildFromCodeList id cl tl ex).2 ∧
        ∀ c ∈ (buildFromCodeList id cl tl ex).1.concept.drop (exConcepts ex).length,
          ¬ c.code = p.1) ∧
    (∀ p ∈ dedupTL entries [], depTL p.2 = true →
        (⟨p.1, p.2.code, id ++ ".json".data, id⟩ : MappingEntry)
            ∈ (buildFromTopLevel id entries ex).2 ∧
        ∀ c ∈ (buildFromTopLevel id entries ex).1.concept.drop (exConcepts ex).length,
          ¬ c.code = p.1) := by
  constructor
  · intro p hp hdep
    constructor
    · have hm : (buildFromCodeList id cl tl ex).2 =
          ( dedupCL cl.codes []).map
            (fun q => (⟨q.1, q.2.code, srcFileCL cl, id⟩ : MappingEntry)) := by
        simp [buildFromCodeList, clLoop_maps]
      rw [hm]
      exact List.mem_map_of_mem _ hp
    · intro c hc hcp
      have hdd : (buildFromCodeList id cl tl ex).1.concept.drop (exConcepts ex).length =
          ( clLoop id (toTitle id) (srcFileCL cl) (existingCodesOf ex) []
            ( dedupCL cl.codes [])).1 := by
        rw [buildFromCodeList_concept, List.drop_left]
      rw [hdd] at hc
      obtain ⟨q, hq, hcq, hqdep⟩ :=
        clLoop_concepts id (toTitle id) (srcFileCL cl) (existingCodesOf ex)
          ( dedupCL cl.codes []) [] c hc
      have hkeys : ((( dedupCL cl.codes []).map Prod.fst).Nodup) :=
        dedupCL_keys cl.codes [] (by simp)
      have hfst : p.1 = q.1 := by rw [← hcp, hcq]
      have hpq : p = q := List.inj_on_of_nodup_map hkeys hp hq hfst
      rw [hpq, hqdep] at hdep
      cases hdep
  · intro p hp hdep
    constructor
    · have hm : (buildFromTopLevel id entries ex).2 =
          (( dedupTL entries []).filter (fun q => optTruthy q.2.display)).map
            (fun q => (⟨q.1, q.2.code, id ++ ".json".data, id⟩ : MappingEntry)) := by
        simp [buildFromTopLevel, tlLoop_maps]
      rw [hm]
      apply List.mem_map_of_mem
      rw [List.mem_filter]
      exact ⟨hp, optTruthy_of_depTL p.2 hdep⟩
    · intro c hc hcp
      have hd2 : (buildFromTopLevel id entries ex).1.concept.drop (exConcepts ex).length =
          ( tlLoop id (toTitle id) (existingCodesOf ex) [] ( dedupTL entries [])).1 := by
        rw [buildFromTopLevel_concept, List.drop_left]
      rw [hd2] at hc
      obtain ⟨q, hq, hcq, hqdep⟩ :=
        tlLoop_concepts id (toTitle id) (existingCodesOf ex)
          ( dedupTL entries []) [] c hc
      have hkeys : ((( dedupTL entries []).map Prod.fst).Nodup) :=
        dedupTL_keys entries [] (by simp)
      have hfst : p.1 = q.1 := by rw [← hcp, hcq]
      have hpq : p = q := List.inj_on_of_nodup_map hkeys hp hq hfst
      rw [hpq, hqdep] at hdep
      cases hdep

/-- Witness for C7 at a concrete code-list with one deprecated winner. -/
theorem deprecated_excluded_still_mapped_witness :
    (("dep1".data, cDepWitness) ∈ dedupCL clDepWitness.codes []) ∧
    depOrMarkedCL cDepWitness = true ∧
    ((⟨"dep1".data, cDepWitness.code, srcFileCL clDepWitness, "risk-thing".data⟩ : MappingEntry)
        ∈ (buildFromCodeList "risk-thing".data clDepWitness none none).2 ∧
      ∀ c ∈ (buildFromCodeList "risk-thing".data clDepWitness none none).1.concept.drop
          (exConcepts none).length, ¬ c.code = "dep1".data) :=
  ⟨by decide, by decide,
    (deprecated_excluded_still_mapped "risk-thing".data clDepWitness none none []).1
      ("dep1".data, cDepWitness) (by decide) (by decide)⟩

-- ===========================================================================
-- Build-level closure and stability (C1)
-- ===========================================================================

/-- Every non-deprecated code-list winner's code appears among the codes of
the built record. -/
theorem buildFromCodeList_closure (id : List Char) (cl : CodeListFile)
    (tl : Option (List TopLevelEntry)) (ex : Option BindCodeSystem) :
    ∀ p ∈ dedupCL cl.codes [], depOrMarkedCL p.2 = false →
      p.1 ∈ (buildFromCodeList id cl tl ex).1.concept.map (fun c => c.code) := by
  intro p hp hdep
  have h := clLoop_closure id (toTitle id) (srcFileCL cl) (existingCodesOf ex)
    ( dedupCL cl.codes []) [] p hp hdep
  rw [buildFromCodeList_concept, List.map_append]
  rcases h with h | h | h
  · exact List.mem_append_left _ h
  · exact absurd h (List.not_mem_nil _)
  · exact List.mem_append_right _ h

/-- Every non-deprecated, truthy-display top-level winner's code appears
among the codes of the built record. -/
theorem buildFromTopLevel_closure (id : List Char) (entries : List TopLevelEntry)
    (ex : Option BindCodeSystem) :
    ∀ p ∈ dedupTL entries [], depTL p.2 = false → optTruthy p.2.display = true →
      p.1 ∈ (buildFromTopLevel id entries ex).1.concept.map (fun c => c.code) := by
  intro p hp hdep htr
  have h := tlLoop_closure id (toTitle id) (existingCodesOf ex)
    ( dedupTL entries []) [] p hp hdep htr
  rw [buildFromTopLevel_concept, List.map_append]
  rcases h with h | h | h
  · exact List.mem_append_left _ h
  · exact absurd h (List.not_mem_nil _)
  · exact List.mem_append_right _ h

/-- A code-list build against an existing record that already holds every
non-deprecated winner's code returns the record unchanged. -/
theorem buildFromCodeList_stable (id : List Char) (cl : CodeListFile)
    (tl : Option (List TopLevelEntry)) (cs : BindCodeSystem)
    (h : ∀ p ∈ dedupCL cl.codes [], depOrMarkedCL p.2 = false →
        p.1 ∈ cs.concept.map (fun c => c.code))
    (hl : cs.language.isSome = true) :
    (buildFromCodeList id cl tl (some cs)).1 = cs := by
  have hloop : ( clLoop id (toTitle id) (srcFileCL cl) (existingCodesOf (some cs)) []
      ( dedupCL cl.codes [])).1 = [] :=
    clLoop_stable id (toTitle id) (srcFileCL cl) (existingCodesOf (some cs))
      ( dedupCL cl.codes []) [] h
  show (mergeOrFresh id (toTitle id) (toPascalCase id) (some cs)
    ( clLoop id (toTitle id) (srcFileCL cl) (existingCodesOf (some cs)) []
      ( dedupCL cl.codes [])).1) = cs
  rw [hloop]
  exact mergeOrFresh_self _ _ _ cs hl

/-- A top-level build against an existing record that already holds every
kept winner's code returns the record unchanged. -/
theorem buildFromTopLevel_stable (id : List Char) (entries : List TopLevelEntry)
    (cs : BindCodeSystem)
    (h : ∀ p ∈ dedupTL entries [], depTL p.2 = false → optTruthy p.2.display = true →
        p.1 ∈ cs.concept.map (fun c => c.code))
    (hl : cs.language.isSome = true) :
    (buildFromTopLevel id entries (some cs)).1 = cs := by
  have hloop : ( tlLoop id (toTitle id) (existingCodesOf (some cs)) []
      ( dedupTL entries [])).1 = [] :=
    tlLoop_stable id (toTitle id) (existingCodesOf (some cs))
      ( dedupTL entries []) [] h
  show (mergeOrFresh id (toTitle id) (toPascalCase id) (some cs)
    ( tlLoop id (toTitle id) (existingCodesOf (some cs)) []
      ( dedupTL entries [])).1) = cs
  rw [hloop]
  exact mergeOrFresh_self _ _ _ cs hl

/-- Writing succeeds exactly on nonempty records, returning them unchanged. -/
theorem writeOrSkip_some (cs cs' : BindCodeSystem) (h : writeOrSkip cs = some cs') :
    cs' = cs ∧ cs.concept.isEmpty = false := by
  by_cases hemp : cs.concept.isEmpty = true
  · simp [writeOrSkip, hemp] at h
  · have hemp' : cs.concept.isEmpty = false := by
      cases he : cs.concept.isEmpty with
      | false => rfl
      | true => exact absurd he hemp
    simp [writeOrSkip, hemp'] at h
    exact ⟨h.symm, hemp'⟩

/-- A nonempty record is always written. -/
theorem writeOrSkip_of_nonempty (cs : BindCodeSystem) (h : cs.concept.isEmpty = false) :
    writeOrSkip cs = some cs := by
  simp [writeOrSkip, h]

/-- The concepts of a present existing record. -/
theorem exConcepts_some (cs : BindCodeSystem) : exConcepts (some cs) = cs.concept := rfl

-- ===========================================================================
-- Branch equations for `processId`
-- ===========================================================================

/-- Branch of `processId` when both a code-list and a top-level file exist for the id. -/
theorem processId_eq_some_some (clMap : List (List Char × CodeListFile))
    (tlMap : List (List Char × List TopLevelEntry)) (id : List Char)
    (ex : Option BindCodeSystem) (cl : CodeListFile) (tl : List TopLevelEntry)
    (hcl : assocGet clMap id = some cl) (htl : assocGet tlMap id = some tl) :
    processId clMap tlMap id ex =
      (writeOrSkip (buildFromTopLevel id tl
          (some (buildFromCodeList id cl (some tl) ex).1)).1,
       (buildFromCodeList id cl (some tl) ex).2 ++
         (buildFromTopLevel id tl (some (buildFromCodeList id cl (some tl) ex).1)).2) := by
  simp only [processId, hcl, htl]

/-- Branch of `processId` when only a code-list file exists for the id. -/
theorem processId_eq_some_none (clMap : List (List Char × CodeListFile))
    (tlMap : List (List Char × List TopLevelEntry)) (id : List Char)
    (ex : Option BindCodeSystem) (cl : CodeListFile)
    (hcl : assocGet clMap id = some cl) (htl : assocGet tlMap id = none) :
    processId clMap tlMap id ex =
      (writeOrSkip (buildFromCodeList id cl none ex).1,
       (buildFromCodeList id cl none ex).2) := by
  simp only [processId, hcl, htl]

/-- Branch of `processId` when only a top-level file exists for the id: the
enrichment search cannot find a code list under the very key whose absence
selected this branch, so it never fires. -/
theorem processId_eq_none_some (clMap : List (List Char × CodeListFile))
    (tlMap : List (List Char × List TopLevelEntry)) (id : List Char)
    (ex : Option BindCodeSystem) (tl : List TopLevelEntry)
    (hcl : assocGet clMap id = none) (htl : assocGet tlMap id = some tl) :
    processId clMap tlMap id ex =
      (writeOrSkip (buildFromTopLevel id tl ex).1,
       (buildFromTopLevel id tl ex).2) := by
  simp only [processId, hcl, htl, find_eq_none_of_assocGet_none clMap id hcl]

/-- Branch of `processId` when the id occurs in neither map. -/
theorem processId_eq_none_none (clMap : List (List Char × CodeListFile))
    (tlMap : List (List Char × List TopLevelEntry)) (id : List Char)
    (ex : Option BindCodeSystem)
    (hcl : assocGet clMap id = none) (htl : assocGet tlMap id = none) :
    processId clMap tlMap id ex = (none, []) := by
  simp only [processId, hcl, htl]

-- ===========================================================================
-- Claim theorem: C2
-- ===========================================================================

/-- C2: a pipeline run is append-only on every pre-existing record: when a
record is written for an id, its concept array is the pre-existing concept
array followed by some (possibly empty) list of appended concepts, so no
pre-existing concept is removed or altered in any field. -/
theorem pipeline_append_only (clMap : List (List Char × CodeListFile))
    (tlMap : List (List Char × List TopLevelEntry)) (id : List Char)
    (e : BindCodeSystem) :
    ((processId clMap tlMap id (some e)).1).elim True
      (fun cs => ∃ t, cs.concept = e.concept ++ t) := by
  cases hcl : assocGet clMap id with
  | some cl =>
      cases htl : assocGet tlMap id with
      | some tl =>
          rw [processId_eq_some_some clMap tlMap id (some e) cl tl hcl htl]
          dsimp only
          cases hw : writeOrSkip (buildFromTopLevel id tl
              (some (buildFromCodeList id cl (some tl) (some e)).1)).1 with
          | none => trivial
          | some cs =>
              simp only [Option.elim]
              obtain ⟨hcs, _⟩ := writeOrSkip_some _ cs hw
              rw [hcs]
              exact ⟨_, by
                rw [buildFromTopLevel_concept, exConcepts_some,
                  buildFromCodeList_concept, exConcepts_some, List.append_assoc]⟩
      | none =>
          rw [processId_eq_some_none clMap tlMap id (some e) cl hcl htl]
          dsimp only
          cases hw : writeOrSkip (buildFromCodeList id cl none (some e)).1 with
          | none => trivial
          | some cs =>
              simp only [Option.elim]
              obtain ⟨hcs, _⟩ := writeOrSkip_some _ cs hw
              rw [hcs]
              exact ⟨_, by rw [buildFromCodeList_concept, exConcepts_some]⟩
  | none =>
      cases htl : assocGet tlMap id with
      | some tl =>
          rw [processId_eq_none_some clMap tlMap id (some e) tl hcl htl]
          dsimp only
          cases hw : writeOrSkip (buildFromTopLevel id tl (some e)).1 with
          | none => trivial
          | some cs =>
              simp only [Option.elim]
              obtain ⟨hcs, _⟩ := writeOrSkip_some _ cs hw
              rw [hcs]
              exact ⟨_, by rw [buildFromTopLevel_concept, exConcepts_some]⟩
      | none =>
          rw [processId_eq_none_none clMap tlMap id (some e) hcl htl]
          trivial

-- ===========================================================================
-- Claim theorem: C8
-- ===========================================================================

/-- A code-list build preserves pairwise-distinct concept codes. -/
theorem buildFromCodeList_nodup (id : List Char) (cl : CodeListFile)
    (tl : Option (List TopLevelEntry)) (ex : Option BindCodeSystem)
    (h : (existingCodesOf ex).Nodup) :
    ((buildFromCodeList id cl tl ex).1.concept.map (fun c => c.code)).Nodup := by
  rw [buildFromCodeList_concept, List.map_append, List.nodup_append]
  obtain ⟨hnd, hall⟩ := clLoop_nodup id (toTitle id) (srcFileCL cl) (existingCodesOf ex)
    ( dedupCL cl.codes []) []
  refine ⟨h, hnd, ?_⟩
  intro a ha hmem
  exact (hall a hmem).1 ha

/-- A top-level build preserves pairwise-distinct concept codes. -/
theorem buildFromTopLevel_nodup (id : List Char) (entries : List TopLevelEntry)
    (ex : Option BindCodeSystem) (h : (existingCodesOf ex).Nodup) :
    ((buildFromTopLevel id entries ex).1.concept.map (fun c => c.code)).Nodup := by
  rw [buildFromTopLevel_concept, List.map_append, List.nodup_append]
  obtain ⟨hnd, hall⟩ := tlLoop_nodup id (toTitle id) (existingCodesOf ex)
    ( dedupTL entries []) []
  refine ⟨h, hnd, ?_⟩
  intro a ha hmem
  exact (hall a hmem).1 ha

/-- C8: assuming the pre-existing record (if any) has pairwise-distinct
concept codes, every record written by a run has pairwise-distinct concept
codes: no appended concept's derived code equals an existing concept's
code or another appended concept's code. -/
theorem written_codes_nodup (clMap : List (List Char × CodeListFile))
    (tlMap : List (List Char × List TopLevelEntry)) (id : List Char)
    (ex : Option BindCodeSystem) (h : (existingCodesOf ex).Nodup) :
    ((processId clMap tlMap id ex).1).elim True
      (fun cs => (cs.concept.map (fun c => c.code)).Nodup) := by
  cases hcl : assocGet clMap id with
  | some cl =>
      cases htl : assocGet tlMap id with
      | some tl =>
          rw [processId_eq_some_some clMap tlMap id ex cl tl hcl htl]
          dsimp only
          cases hw : writeOrSkip (buildFromTopLevel id tl
              (some (buildFromCodeList id cl (some tl) ex).1)).1 with
          | none => trivial
          | some cs =>
              simp only [Option.elim]
              obtain ⟨hcs, _⟩ := writeOrSkip_some _ cs hw
              rw [hcs]
              exact buildFromTopLevel_nodup id tl _
                (buildFromCodeList_nodup id cl (some tl) ex h)
      | none =>
          rw [processId_eq_some_none clMap tlMap id ex cl hcl htl]
          dsimp only
          cases hw : writeOrSkip (buildFromCodeList id cl none ex).1 with
          | none => trivial
          | some cs =>
              simp only [Option.elim]
              obtain ⟨hcs, _⟩ := writeOrSkip_some _ cs hw
              rw [hcs]
              exact buildFromCodeList_nodup id cl none ex h
  | none =>
      cases htl : assocGet tlMap id with
      | some tl =>
          rw [processId_eq_none_some clMap tlMap id ex tl hcl htl]
          dsimp only
          cases hw : writeOrSkip (buildFromTopLevel id tl ex).1 with
          | none => trivial
          | some cs =>
              simp only [Option.elim]
              obtain ⟨hcs, _⟩ := writeOrSkip_some _ cs hw
              rw [hcs]
              exact buildFromTopLevel_nodup id tl ex h
      | none =>
          rw [processId_eq_none_none clMap tlMap id ex hcl htl]
          trivial

/-- Witness for C8 on a concrete top-level map with a duplicate pair and
no pre-existing record. -/
theorem written_codes_nodup_witness :
    (existingCodesOf none).Nodup ∧
    ((processId [] tlMapNodup "risk-type".data none).1).elim True
      (fun cs => (cs.concept.map (fun c => c.code)).Nodup) :=
  ⟨by decide, written_codes_nodup [] tlMapNodup "risk-type".data none (by decide)⟩

-- ===========================================================================
-- Claim theorem: C1
-- ===========================================================================

/-- C1: the per-id pipeline is idempotent.  Whenever a run writes a record
for an id, a second run over the same source maps, reading that written
record from the unchanged output directory, writes exactly the same
record: every kept winner's derived code already exists in the record read
from disk, the skip-if-already-exists branch fires for all of them, and
zero new concepts are appended. -/
theorem pipeline_idempotent (clMap : List (List Char × CodeListFile))
    (tlMap : List (List Char × List TopLevelEntry)) (id : List Char)
    (ex : Option BindCodeSystem) :
    ((processId clMap tlMap id ex).1).elim True
      (fun cs => (processId clMap tlMap id (some cs)).1 = some cs) := by
  cases hcl : assocGet clMap id with
  | some cl =>
      cases htl : assocGet tlMap id with
      | some tl =>
          rw [processId_eq_some_some clMap tlMap id ex cl tl hcl htl]
          dsimp only
          cases hw : writeOrSkip (buildFromTopLevel id tl
              (some (buildFromCodeList id cl (some tl) ex).1)).1 with
          | none => trivial
          | some cs =>
              simp only [Option.elim]
              obtain ⟨hcs, hne⟩ := writeOrSkip_some _ cs hw
              rw [processId_eq_some_some clMap tlMap id (some cs) cl tl hcl htl]
              dsimp only
              have hlang : cs.language.isSome = true := by
                rw [hcs]; exact buildFromTopLevel_language id tl _
              have hclos1 : ∀ p ∈ dedupCL cl.codes [], depOrMarkedCL p.2 = false →
                  p.1 ∈ cs.concept.map (fun c => c.code) := by
                intro p hp hdep
                have h1 := buildFromCodeList_closure id cl (some tl) ex p hp hdep
                rw [hcs, buildFromTopLevel_concept, List.map_append]
                exact List.mem_append_left _ (by rw [exConcepts_some]; exact h1)
              have hstab1 : (buildFromCodeList id cl (some tl) (some cs)).1 = cs :=
                buildFromCodeList_stable id cl (some tl) cs hclos1 hlang
              rw [hstab1]
              have hclos2 : ∀ p ∈ dedupTL tl [], depTL p.2 = false →
                  optTruthy p.2.display = true →
                  p.1 ∈ cs.concept.map (fun c => c.code) := by
                intro p hp hdep htr
                have h2 := buildFromTopLevel_closure id tl
                  (some (buildFromCodeList id cl (some tl) ex).1) p hp hdep htr
                rw [hcs]
                exact h2
              have hstab2 : (buildFromTopLevel id tl (some cs)).1 = cs :=
                buildFromTopLevel_stable id tl cs hclos2 hlang
              rw [hstab2]
              exact writeOrSkip_of_nonempty cs (by rw [hcs]; exact hne)
      | none =>
          rw [processId_eq_some_none clMap tlMap id ex cl hcl htl]
          dsimp only
          cases hw : writeOrSkip (buildFromCodeList id cl none ex).1 with
          | none => trivial
          | some cs =>
              simp only [Option.elim]
              obtain ⟨hcs, hne⟩ := writeOrSkip_some _ cs hw
              rw [processId_eq_some_none clMap tlMap id (some cs) cl hcl htl]
              dsimp only
              have hlang : cs.language.isSome = true := by
                rw [hcs]; exact buildFromCodeList_language id cl none ex
              have hclos1 : ∀ p ∈ dedupCL cl.codes [], depOrMarkedCL p.2 = false →
                  p.1 ∈ cs.concept.map (fun c => c.code) := by
                intro p hp hdep
                have h1 := buildFromCodeList_closure id cl none ex p hp hdep
                rw [hcs]
                exact h1
              have hstab1 : (buildFromCodeList id cl none (some cs)).1 = cs :=
                buildFromCodeList_stable id cl none cs hclos1 hlang
              rw [hstab1]
              exact writeOrSkip_of_nonempty cs (by rw [hcs]; exact hne)
  | none =>
      cases htl : assocGet tlMap id with
      | some tl =>
          rw [processId_eq_none_some clMap tlMap id ex tl hcl htl]
          dsimp only
          cases hw : writeOrSkip (buildFromTopLevel id tl ex).1 with
          | none => trivial
          | some cs =>
              simp only [Option.elim]
              obtain ⟨hcs, hne⟩ := writeOrSkip_some _ cs hw
              rw [processId_eq_none_some clMap tlMap id (some cs) tl hcl htl]
              dsimp only
              have hlang : cs.language.isSome = true := by
                rw [hcs]; exact buildFromTopLevel_language id tl ex
              have hclos2 : ∀ p ∈ dedupTL tl [], depTL p.2 = false →
                  optTruthy p.2.display = true →
                  p.1 ∈ cs.concept.map (fun c => c.code) := by
                intro p hp hdep htr
                have h2 := buildFromTopLevel_closure id tl ex p hp hdep htr
                rw [hcs]
                exact h2
              have hstab2 : (buildFromTopLevel id tl (some cs)).1 = cs :=
                buildFromTopLevel_stable id tl cs hclos2 hlang
              rw [hstab2]
              exact writeOrSkip_of_nonempty cs (by rw [hcs]; exact hne)
      | none =>
          rw [processId_eq_none_none clMap tlMap id ex hcl htl]
          trivial
